import Mathlib

/-!
Verification of the log-structured key-value store engine (project-4).

The development shallowly embeds `src/project-4/src/engines/kvstore.rs`
(the `KvStore` engine: `set`, `get`, `remove`, `compact`, `open`,
`build_index`), `src/project-4/src/server.rs` (`serve`), and
`src/project-4/src/bin/kvs-server.rs` (`current_engine_or`).

Modelling choices:
- A segment file is the list of command records it contains; byte offsets
  are recovered from the records' serialized lengths (`encLen`, the length
  in bytes of the `serde_json` encoding used by the code).
- The directory is an association list from generation number to segment
  contents, kept sorted by generation (the code sorts with
  `sort_gen_list`).
- The concurrent skip-list index (`crossbeam_skiplist::SkipMap`) is a
  key-sorted association list; `insert` replaces an existing binding and
  `remove` deletes it, as in the library. Compaction's iteration over the
  skip map visits the key-ordered snapshot of entries present when the
  loop starts, which is faithful because the loop only ever re-inserts
  the key currently being visited.
- Buffered-but-unflushed bytes never appear in a segment's modelled
  contents; a record enters the model when the code flushes it.  The
  order of writes, flushes and index updates is additionally recorded as
  an explicit event trace for the flush-ordering property.
-/

namespace KVS

/-- `Command` from kvstore.rs: `Set { key, value }` / `Remove { key }`. -/
inductive Command where
  | set (key value : String)
  | remove (key : String)
deriving DecidableEq, Repr

/-- Byte length of the JSON escape of one character, as produced by
`serde_json`: `"` and `\` become two bytes, the short control escapes
become two bytes, other control characters become `\u00XX` (six bytes),
and any other character contributes its UTF-8 size. -/
def escLen (c : Char) : Nat :=
  if c = '"' ∨ c = '\\' then 2
  else if c.toNat < 32 then
    if c.toNat = 8 ∨ c.toNat = 9 ∨ c.toNat = 10 ∨ c.toNat = 12 ∨ c.toNat = 13 then 2 else 6
  else c.utf8Size

/-- Byte length of the `serde_json` string body of `s`. -/
def strLen (s : String) : Nat := (s.data.map escLen).sum

/-- Byte length of the `serde_json` encoding of a command record.
`Set` serializes as `\x7b"Set":\x7b"key":"K","value":"V"\x7d\x7d`
(29 bytes of fixed syntax), `Remove` as
`\x7b"Remove":\x7b"key":"K"\x7d\x7d` (21 bytes of fixed syntax). -/
def encLen : Command → Nat
  | .set k v => 29 + strLen k + strLen v
  | .remove k => 21 + strLen k

/-- A segment file's contents: the concatenated command records. -/
abbrev LogFile := List Command

/-- Total byte length of a segment file. -/
def fileLen (f : LogFile) : Nat := (f.map encLen).sum

/-- Reading `len` bytes at byte offset `pos` of file `f` and
deserializing one record (`BufReader::seek` + `take(len)` +
`serde_json::from_reader`).  This succeeds exactly when `pos` is a
record boundary and `len` is that record's full length: a short read is
a truncated JSON document and extra bytes are trailing garbage, both of
which `from_reader` rejects. -/
def readAt : LogFile → Nat → Nat → Option Command
  | [], _, _ => none
  | c :: cs, pos, len =>
    if pos = 0 then (if len = encLen c then some c else none)
    else if encLen c ≤ pos then readAt cs (pos - encLen c) len else none

/-- `CommandPosition` from kvstore.rs. -/
structure CommandPosition where
  position : Nat
  length : Nat
  gen : Nat
deriving DecidableEq, Repr

/-- The in-memory index (`SkipMap<String, CommandPosition>`), modelled
as a key-sorted association list. -/
abbrev Index := List (String × CommandPosition)

/-- Index lookup (`SkipMap::get`). -/
def idxGet : Index → String → Option CommandPosition
  | [], _ => none
  | (k', p) :: rest, k => if k' = k then some p else idxGet rest k

/-- Lexicographic comparison of character lists by code point; this is
the order `Ord for String` induces in Rust (UTF-8 byte order coincides
with code-point order), hence the key order of the skip map. -/
def strLtChars : List Char → List Char → Bool
  | [], [] => false
  | [], _ :: _ => true
  | _ :: _, [] => false
  | a :: as, b :: bs =>
    if a.toNat < b.toNat then true
    else if b.toNat < a.toNat then false
    else strLtChars as bs

/-- Strict key order of the index. -/
def strLt (a b : String) : Bool := strLtChars a.data b.data

/-- Index insertion (`SkipMap::insert`): replaces an existing binding
for the key, keeping the list key-sorted. -/
def idxInsert : Index → String → CommandPosition → Index
  | [], k, p => [(k, p)]
  | (k', p') :: rest, k, p =>
    if strLt k k' then (k, p) :: (k', p') :: rest
    else if k = k' then (k, p) :: rest
    else (k', p') :: idxInsert rest k p

/-- Index removal (`SkipMap::remove`). -/
def idxRemove : Index → String → Index
  | [], _ => []
  | (k', p) :: rest, k => if k' = k then rest else (k', p) :: idxRemove rest k

/-- Keys sortedness predicate for the index: strictly ascending in the
skip map's key order. -/
def KeysSorted (idx : Index) : Prop :=
  List.Pairwise (fun a b : String × CommandPosition => strLt a.1 b.1 = true) idx

/-- The segment directory: generation number to file contents, sorted
ascending by generation (`sort_gen_list` sorts the `<gen>.log` names). -/
abbrev Segments := List (Nat × LogFile)

/-- Find the segment file for a generation. -/
def lookupGen : Segments → Nat → Option LogFile
  | [], _ => none
  | (g, f) :: rest, gen => if g = gen then some f else lookupGen rest gen

/-- Create or replace the file for generation `g` (`new_log_file`),
keeping the list sorted by generation. -/
def insGen : Segments → Nat → LogFile → Segments
  | [], g, f => [(g, f)]
  | (g', f') :: rest, g, f =>
    if g < g' then (g, f) :: (g', f') :: rest
    else if g = g' then (g, f) :: rest
    else (g', f') :: insGen rest g f

/-- Append one record to the segment of generation `gen` (the writer's
append followed by a flush). -/
def appendActive (segs : Segments) (gen : Nat) (c : Command) : Segments :=
  segs.map (fun gf => (gf.1, if gf.1 = gen then gf.2 ++ [c] else gf.2))

/-- Dereference a `CommandPosition` against the directory
(`KvStoreReader::read_command`). -/
def readState (segs : Segments) (p : CommandPosition) : Option Command :=
  match lookupGen segs p.gen with
  | none => none
  | some f => readAt f p.position p.length

/-- Engine errors, identified by the `failure` messages the code
produces: `"Key not found"`, `"Invalid command"`, `"Wrong engine"`, and
underlying I/O failures. -/
inductive KvError where
  | keyNotFound
  | invalidCommand
  | engineMismatch
  | ioError
deriving DecidableEq, Repr

/-- The portion of the engine state the claims concern: the directory
contents, the active generation, the uncompacted-bytes counter and the
index (`KvStore` + `KvStoreWriter` fields). -/
structure KvState where
  segments : Segments
  currentGen : Nat
  uncompactedSize : Nat
  index : Index
deriving DecidableEq, Repr

/-- `COMPACTION_THRESHOLD` from kvstore.rs. -/
def COMPACTION_THRESHOLD : Nat := 1024 * 1024

instance {ε α : Type} [DecidableEq ε] [DecidableEq α] : DecidableEq (Except ε α) := fun a b =>
  match a, b with
  | .error e₁, .error e₂ =>
    if h : e₁ = e₂ then isTrue (by rw [h])
    else isFalse (by intro hc; cases hc; exact h rfl)
  | .error _, .ok _ => isFalse (by intro hc; cases hc)
  | .ok _, .error _ => isFalse (by intro hc; cases hc)
  | .ok a₁, .ok a₂ =>
    if h : a₁ = a₂ then isTrue (by rw [h])
    else isFalse (by intro hc; cases hc; exact h rfl)

/-- `KvsEngine::get` for `KvStore`: consult the index; on a hit,
deserialize the record at the stored position and expect a `Set`. -/
def get (s : KvState) (key : String) : Except KvError (Option String) :=
  match idxGet s.index key with
  | none => .ok none
  | some p =>
    match readState s.segments p with
    | some (.set _ v) => .ok (some v)
    | some (.remove _) => .error .invalidCommand
    | none => .error .ioError

/-- Write/flush/index events, used to state the flush-ordering
property of the write path. -/
inductive Event where
  | appendRec (gen pos len : Nat)
  | flushSeg (gen : Nat)
  | insertIdx (key : String) (p : CommandPosition)
deriving DecidableEq, Repr

/-- The copy loop of `KvStoreWriter::compact`: for each entry of the
index snapshot (in key order), copy its raw bytes into the compact
segment's buffered writer, insert the entry's new position into the
index, and advance `new_pos` by the number of bytes copied.  Bytes are
accumulated in `buf` (the unflushed `BufWriter` contents); under the
engine invariant the bytes copied for an entry are exactly its record. -/
def compactLoop (cg : Nat) (segs : Segments) :
    List (String × CommandPosition) → Nat → LogFile → Index → List Event →
    Option (LogFile × Index × Nat × List Event)
  | [], pos, buf, idx, evs => some (buf, idx, pos, evs)
  | (k, p) :: rest, pos, buf, idx, evs =>
    match readState segs p with
    | none => none
    | some c =>
      compactLoop cg segs rest (pos + p.length) (buf ++ [c])
        (idxInsert idx k ⟨pos, p.length, cg⟩)
        (evs ++ [Event.appendRec cg pos p.length, Event.insertIdx k ⟨pos, p.length, cg⟩])

/-- `KvStoreWriter::compact`: reserve `compact_gen = current_gen + 1`
and a new active generation `current_gen + 2`, create both files, copy
every index entry's record into the compact segment (updating the index
as it goes), flush the compact segment, then delete every generation
below `compact_gen`.  The uncompacted-size counter is not touched.
Returns the new state and the event trace of the copy loop plus the
final flush. -/
def compact (s : KvState) : Option (KvState × List Event) :=
  let compactGen := s.currentGen + 1
  let newGen := s.currentGen + 2
  let segsWork := insGen (insGen s.segments newGen []) compactGen []
  match compactLoop compactGen segsWork s.index 0 [] s.index [] with
  | none => none
  | some (buf, idx, _, evs) =>
    let segsFlushed := insGen segsWork compactGen buf
    let segsFinal := segsFlushed.filter (fun gf => compactGen ≤ gf.1)
    some (⟨segsFinal, newGen, s.uncompactedSize, idx⟩, evs ++ [Event.flushSeg compactGen])

/-- The body of `KvStoreWriter::set` before the compaction-threshold
check: append the encoded `Set` at the end of the active segment, flush,
add the new record's length to the uncompacted counter when the key was
already present, and insert the new position into the index. -/
def setCore (s : KvState) (key value : String) : Option (KvState × List Event) :=
  match lookupGen s.segments s.currentGen with
  | none => none
  | some f =>
    let c := Command.set key value
    let before := fileLen f
    let len := encLen c
    let segs := appendActive s.segments s.currentGen c
    let u := if (idxGet s.index key).isSome then s.uncompactedSize + len else s.uncompactedSize
    let idx := idxInsert s.index key ⟨before, len, s.currentGen⟩
    some (⟨segs, s.currentGen, u, idx⟩,
      [Event.appendRec s.currentGen before len, Event.flushSeg s.currentGen,
       Event.insertIdx key ⟨before, len, s.currentGen⟩])

/-- `KvStoreWriter::set`: the core write followed by compaction when the
uncompacted counter exceeds `COMPACTION_THRESHOLD`. -/
def doSet (s : KvState) (key value : String) : Option KvState :=
  match setCore s key value with
  | none => none
  | some (s1, _) =>
    if COMPACTION_THRESHOLD < s1.uncompactedSize then
      match compact s1 with
      | none => none
      | some (s2, _) => some s2
    else some s1

/-- `KvStoreWriter::remove`: if the key is present, append the tombstone
and flush, remove the key from the index and add the removed entry's
length to the uncompacted counter; otherwise fail with `KeyNotFound`
and leave the state untouched. -/
def doRemove (s : KvState) (key : String) : KvState × Option KvError :=
  match idxGet s.index key with
  | none => (s, some .keyNotFound)
  | some p =>
    let segs := appendActive s.segments s.currentGen (Command.remove key)
    let idx := idxRemove s.index key
    (⟨segs, s.currentGen, s.uncompactedSize + p.length, idx⟩, none)

/-- `build_index` from kvstore.rs: replay one segment, tracking the byte
offset of each record, inserting `Set`s (adding the overwritten entry's
length to the uncompacted count) and removing on `Remove` (adding the
tombstone's own length when a key was actually removed). -/
def buildIndexLoop (gen : Nat) : LogFile → Nat → Index → Nat → Index × Nat
  | [], _, idx, u => (idx, u)
  | c :: rest, pos, idx, u =>
    let length := encLen c
    match c with
    | .set k _ =>
      let u' := match idxGet idx k with
        | some old => u + old.length
        | none => u
      buildIndexLoop gen rest (pos + length) (idxInsert idx k ⟨pos, length, gen⟩) u'
    | .remove k =>
      let u' := if (idxGet idx k).isSome then u + length else u
      buildIndexLoop gen rest (pos + length) (idxRemove idx k) u'

/-- Replay every segment in ascending generation order, accumulating
the index and the uncompacted count (the `for gen in gen_list` loop of
`KvStore::open`). -/
def replayAll (segs : Segments) : Index × Nat :=
  segs.foldl (fun acc gf => buildIndexLoop gf.1 gf.2 0 acc.1 acc.2) ([], 0)

/-- Largest generation present (the last element of the sorted
generation list, `0` when the directory is empty). -/
def maxGen (segs : Segments) : Nat := (segs.map Prod.fst).foldr max 0

/-- `KvStore::open`: list and replay the existing segments in ascending
generation order, then create a fresh active segment with generation
`max + 1`. -/
def openStore (segs : Segments) : KvState :=
  let currentGen := maxGen segs + 1
  let r := replayAll segs
  ⟨insGen segs currentGen [], currentGen, r.2, r.1⟩

/-- `KvsRequest` from request.rs. -/
inductive KvsRequest where
  | get (key : String)
  | set (key value : String)
  | remove (key : String)
deriving DecidableEq, Repr

/-- `KvsResponse` from response.rs. -/
inductive KvsResponse where
  | ok (value : Option String)
  | err (msg : String)
deriving DecidableEq, Repr

/-- `serve` from server.rs: dispatch one request to the engine and build
the response.  A failing `get` propagates its error (the `?` operator);
engine failures in `set`/`remove` are converted to `Err` responses. -/
def serve (s : KvState) (req : KvsRequest) : Except KvError (KvsResponse × KvState) :=
  match req with
  | .get key =>
    match get s key with
    | .error e => .error e
    | .ok (some v) => .ok (.ok (some v), s)
    | .ok none => .ok (.ok (some "Key not found"), s)
  | .set key value =>
    match doSet s key value with
    | none => .ok (.err "Set error", s)
    | some s' => .ok (.ok none, s')
  | .remove key =>
    match doRemove s key with
    | (s', none) => .ok (.ok none, s')
    | (_, some _) => .ok (.err "Key not found", s)

/-- `current_engine_or` from bin/kvs-server.rs: `marker` is the current
contents of the `type` file (empty when the file was just created).  An
empty marker is overwritten with the requested engine name; a non-empty
marker that differs from the requested engine fails with the
engine-mismatch error (`"Wrong engine"`).  Returns the resulting marker
contents and the selected engine. -/
def currentEngineOr (marker engine : String) : Except KvError (String × String) :=
  if marker.isEmpty then .ok (engine, engine)
  else if marker ≠ engine then .error .engineMismatch
  else .ok (marker, engine)

/-- A user-level operation, for stating persistence over operation
sequences. -/
inductive Op where
  | set (key value : String)
  | remove (key : String)
deriving DecidableEq, Repr

/-- Run a sequence of operations, requiring each to succeed. -/
def runOps : KvState → List Op → Option KvState
  | s, [] => some s
  | s, Op.set k v :: rest =>
    match doSet s k v with
    | none => none
    | some s' => runOps s' rest
  | s, Op.remove k :: rest =>
    match doRemove s k with
    | (s', none) => runOps s' rest
    | (_, some _) => none

/-- Entry validity: the position stored for `k` dereferences to a `Set`
record for `k`. -/
def entryGood (segs : Segments) (k : String) (p : CommandPosition) : Bool :=
  match readState segs p with
  | some (.set k' _) => k' = k
  | _ => false

/-- Well-formedness of an engine state: the directory is sorted by
generation, the active segment exists, the active generation is the
largest, the index is key-sorted, and every index entry dereferences to
a `Set` record for its key. -/
def WF (s : KvState) : Prop :=
  List.Pairwise (· < ·) (s.segments.map Prod.fst)
  ∧ (lookupGen s.segments s.currentGen).isSome = true
  ∧ (∀ gf ∈ s.segments, gf.1 ≤ s.currentGen)
  ∧ KeysSorted s.index
  ∧ (∀ kp ∈ s.index, entryGood s.segments kp.1 kp.2 = true)

instance (s : KvState) : Decidable (WF s) := by
  unfold WF KeysSorted; infer_instance

/-- The key a command is about. -/
def cmdKey : Command → String
  | .set k _ => k
  | .remove k => k

/-- The records the compaction loop copies for a list of entries, in
order: each entry contributes the record its position dereferences to. -/
def recsOf (segs : Segments) : List (String × CommandPosition) → LogFile
  | [] => []
  | kp :: rest =>
    (match readState segs kp.2 with
      | some c => [c]
      | none => []) ++ recsOf segs rest

/-- The index entries the compaction loop writes for a list of entries,
assigning sequential positions starting at `pos`. -/
def newEnts (cg : Nat) : List (String × CommandPosition) → Nat → List (String × CommandPosition)
  | [], _ => []
  | (k, p) :: rest, pos => (k, ⟨pos, p.length, cg⟩) :: newEnts cg rest (pos + p.length)

/-- Flush-before-insert discipline over an event trace: every index
insertion is preceded by a flush of the segment the inserted position
points into. -/
def fbiAux : List Event → List Nat → Bool
  | [], _ => true
  | Event.flushSeg g :: rest, fl => fbiAux rest (g :: fl)
  | Event.insertIdx _ p :: rest, fl => if p.gen ∈ fl then fbiAux rest fl else false
  | Event.appendRec _ _ _ :: rest, fl => fbiAux rest fl

/-- Every index insertion in the trace happens only after a flush of
the segment it references. -/
def fbi (tr : List Event) : Bool := fbiAux tr []

/-! ### The key order is a strict total order -/

theorem strLtChars_irrefl : ∀ l : List Char, strLtChars l l = false := by
  intro l
  induction l with
  | nil => rfl
  | cons a as ih => simp [strLtChars, Nat.lt_irrefl, ih]

theorem strLtChars_asymm : ∀ l₁ l₂ : List Char,
    strLtChars l₁ l₂ = true → strLtChars l₂ l₁ = false := by
  intro l₁
  induction l₁ with
  | nil =>
    intro l₂ h
    cases l₂ with
    | nil => rfl
    | cons b bs => rfl
  | cons a as ih =>
    intro l₂ h
    cases l₂ with
    | nil => simp [strLtChars] at h
    | cons b bs =>
      simp only [strLtChars] at h ⊢
      by_cases h1 : a.toNat < b.toNat
      · have h2 : ¬b.toNat < a.toNat := by omega
        simp [h1, h2]
      · simp only [h1, if_false] at h
        by_cases h2 : b.toNat < a.toNat
        · simp [h2] at h
        · simp only [h2, if_false] at h ⊢
          simp [h1, ih bs h]

theorem strLtChars_trans : ∀ l₁ l₂ l₃ : List Char,
    strLtChars l₁ l₂ = true → strLtChars l₂ l₃ = true → strLtChars l₁ l₃ = true := by
  intro l₁
  induction l₁ with
  | nil =>
    intro l₂ l₃ h12 h23
    cases l₂ with
    | nil => exact h23
    | cons b bs =>
      cases l₃ with
      | nil => simp [strLtChars] at h23
      | cons c cs => rfl
  | cons a as ih =>
    intro l₂ l₃ h12 h23
    cases l₂ with
    | nil => simp [strLtChars] at h12
    | cons b bs =>
      cases l₃ with
      | nil => simp [strLtChars] at h23
      | cons c cs =>
        simp only [strLtChars] at h12 h23 ⊢
        by_cases hab : a.toNat < b.toNat
        · by_cases hbc : b.toNat < c.toNat
          · have : a.toNat < c.toNat := by omega
            simp [this]
          · simp only [hbc, if_false] at h23
            by_cases hcb : c.toNat < b.toNat
            · simp [hcb] at h23
            · have : a.toNat < c.toNat := by omega
              simp [this]
        · simp only [hab, if_false] at h12
          by_cases hba : b.toNat < a.toNat
          · simp [hba] at h12
          · simp only [hba, if_false] at h12
            by_cases hbc : b.toNat < c.toNat
            · have hac : a.toNat < c.toNat := by omega
              simp [hac]
            · simp only [hbc, if_false] at h23
              by_cases hcb : c.toNat < b.toNat
              · simp [hcb] at h23
              · simp only [hcb, if_false] at h23
                have h1 : ¬a.toNat < c.toNat := by omega
                have h2 : ¬c.toNat < a.toNat := by omega
                simp only [h1, if_false, h2, if_false]
                exact ih bs cs h12 h23

theorem strLtChars_total : ∀ l₁ l₂ : List Char,
    strLtChars l₁ l₂ = false → strLtChars l₂ l₁ = false → l₁ = l₂ := by
  intro l₁
  induction l₁ with
  | nil =>
    intro l₂ h12 h21
    cases l₂ with
    | nil => rfl
    | cons b bs => simp [strLtChars] at h12
  | cons a as ih =>
    intro l₂ h12 h21
    cases l₂ with
    | nil => simp [strLtChars] at h21
    | cons b bs =>
      simp only [strLtChars] at h12 h21
      by_cases hab : a.toNat < b.toNat
      · simp [hab] at h12
      · by_cases hba : b.toNat < a.toNat
        · simp [hba] at h21
        · simp only [hab, if_false, hba, if_false] at h12 h21
          have hcn : a.toNat = b.toNat := by omega
          have hc : a = b := Char.ext (UInt32.toNat.inj hcn)
          rw [hc, ih bs h12 h21]

theorem strLt_irrefl (a : String) : strLt a a = false := strLtChars_irrefl _

theorem strLt_asymm {a b : String} (h : strLt a b = true) : strLt b a = false :=
  strLtChars_asymm _ _ h

theorem strLt_trans {a b c : String} (h1 : strLt a b = true) (h2 : strLt b c = true) :
    strLt a c = true := strLtChars_trans _ _ _ h1 h2

theorem strLt_total {a b : String} (h1 : strLt a b = false) (h2 : strLt b a = false) :
    a = b := by
  have hd : a.data = b.data := strLtChars_total _ _ h1 h2
  cases a with
  | mk da =>
    cases b with
    | mk db =>
      simp only at hd
      rw [hd]

theorem strLt_ne {a b : String} (h : strLt a b = true) : a ≠ b := by
  intro he
  subst he
  rw [strLt_irrefl] at h
  cases h

/-! ### Basic facts about the record codec and segment files -/

theorem encLen_pos (c : Command) : 0 < encLen c := by
  cases c <;> simp only [encLen] <;> omega

theorem fileLen_nil : fileLen [] = 0 := rfl

theorem fileLen_cons (c : Command) (f : LogFile) :
    fileLen (c :: f) = encLen c + fileLen f := by
  simp [fileLen]

theorem fileLen_append (f g : LogFile) :
    fileLen (f ++ g) = fileLen f + fileLen g := by
  simp [fileLen]

/-- A successful read is unchanged by appending to the file. -/
theorem readAt_append_left {f : LogFile} {pos len : Nat} {c : Command}
    (h : readAt f pos len = some c) (g : LogFile) :
    readAt (f ++ g) pos len = some c := by
  induction f generalizing pos with
  | nil => simp [readAt] at h
  | cons d f ih =>
    simp only [readAt] at h ⊢
    by_cases hp : pos = 0
    · simp only [hp, if_true] at h ⊢
      exact h
    · simp only [hp, if_false] at h ⊢
      by_cases hle : encLen d ≤ pos
      · simp only [hle, if_true] at h ⊢
        exact ih h
      · simp [hle] at h

/-- Reading at the end boundary of `f` yields the record placed there. -/
theorem readAt_concat_self (f : LogFile) (c : Command) (g : LogFile) :
    readAt (f ++ c :: g) (fileLen f) (encLen c) = some c := by
  induction f with
  | nil => simp [readAt, fileLen]
  | cons d f ih =>
    have hd := encLen_pos d
    have hpos : fileLen (d :: f) ≠ 0 := by
      rw [fileLen_cons]; omega
    simp only [List.cons_append, readAt, hpos, if_false]
    have hle : encLen d ≤ fileLen (d :: f) := by
      rw [fileLen_cons]; omega
    simp only [hle, if_true]
    have : fileLen (d :: f) - encLen d = fileLen f := by
      rw [fileLen_cons]; omega
    rw [this]; exact ih

/-- A successful read forces the read length to equal the record's
encoded length. -/
theorem readAt_len_eq {f : LogFile} {pos len : Nat} {c : Command}
    (h : readAt f pos len = some c) : len = encLen c := by
  induction f generalizing pos with
  | nil => simp [readAt] at h
  | cons d f ih =>
    simp only [readAt] at h
    by_cases hp : pos = 0
    · simp only [hp, if_true] at h
      by_cases hl : len = encLen d
      · simp only [hl, if_true] at h
        cases h; exact hl
      · simp [hl] at h
    · simp only [hp, if_false] at h
      by_cases hle : encLen d ≤ pos
      · simp only [hle, if_true] at h
        exact ih h
      · simp [hle] at h

/-! ### Basic facts about the index -/

theorem idxGet_insert_self (idx : Index) (k : String) (p : CommandPosition) :
    idxGet (idxInsert idx k p) k = some p := by
  induction idx with
  | nil => simp [idxInsert, idxGet]
  | cons kp rest ih =>
    obtain ⟨k', p'⟩ := kp
    simp only [idxInsert]
    by_cases h1 : strLt k k' = true
    · simp [h1, idxGet]
    · simp only [h1, if_false]
      by_cases h2 : k = k'
      · simp [h2, idxGet]
      · have : k' ≠ k := fun h => h2 h.symm
        simp [h2, idxGet, this, ih]

theorem idxGet_insert_ne (idx : Index) {k k' : String} (p : CommandPosition)
    (h : k' ≠ k) : idxGet (idxInsert idx k p) k' = idxGet idx k' := by
  have hne : k ≠ k' := fun hh => h hh.symm
  induction idx with
  | nil => simp [idxInsert, idxGet, hne]
  | cons kp rest ih =>
    obtain ⟨k0, p0⟩ := kp
    simp only [idxInsert]
    by_cases h1 : strLt k k0 = true
    · simp [h1, idxGet, hne]
    · simp only [h1, if_false]
      by_cases h2 : k = k0
      · subst h2
        simp [idxGet, hne]
      · simp only [h2, if_false, idxGet, ih]

theorem idxGet_remove_ne (idx : Index) {k k' : String}
    (h : k' ≠ k) : idxGet (idxRemove idx k) k' = idxGet idx k' := by
  induction idx with
  | nil => simp [idxRemove]
  | cons kp rest ih =>
    obtain ⟨k0, p0⟩ := kp
    simp only [idxRemove]
    by_cases h1 : k0 = k
    · subst h1
      have hne : k0 ≠ k' := fun hh => h hh.symm
      simp [idxGet, hne]
    · simp only [h1, if_false, idxGet, ih]

theorem idxGet_eq_none_of_forall_ne (idx : Index) (k : String)
    (h : ∀ kp ∈ idx, kp.1 ≠ k) : idxGet idx k = none := by
  induction idx with
  | nil => rfl
  | cons kp rest ih =>
    obtain ⟨k0, p0⟩ := kp
    have hk0 : k0 ≠ k := h (k0, p0) (by simp)
    simp only [idxGet, hk0, if_false]
    exact ih fun kp hkp => h kp (by simp [hkp])

theorem idxGet_remove_self {idx : Index} (hs : KeysSorted idx) (k : String) :
    idxGet (idxRemove idx k) k = none := by
  induction idx with
  | nil => rfl
  | cons kp rest ih =>
    obtain ⟨k0, p0⟩ := kp
    rw [KeysSorted, List.pairwise_cons] at hs
    simp only [idxRemove]
    by_cases h1 : k0 = k
    · subst h1
      rw [if_pos rfl]
      exact idxGet_eq_none_of_forall_ne rest k0
        fun kp hkp => Ne.symm (strLt_ne (hs.1 kp hkp))
    · rw [if_neg h1]
      simp only [idxGet, h1, if_false]
      exact ih hs.2

theorem mem_idxInsert {idx : Index} {k : String} {p : CommandPosition}
    {kp : String × CommandPosition} (h : kp ∈ idxInsert idx k p) :
    kp = (k, p) ∨ kp ∈ idx := by
  induction idx with
  | nil =>
    simp only [idxInsert, List.mem_singleton] at h
    exact Or.inl h
  | cons kp0 rest ih =>
    obtain ⟨k0, p0⟩ := kp0
    simp only [idxInsert] at h
    by_cases h1 : strLt k k0 = true
    · rw [if_pos h1] at h
      simp only [List.mem_cons] at h
      rcases h with heq | hmem
      · exact Or.inl heq
      · exact Or.inr (List.mem_cons.mpr hmem)
    · rw [if_neg h1] at h
      by_cases h2 : k = k0
      · rw [if_pos h2] at h
        simp only [List.mem_cons] at h
        rcases h with heq | hmem
        · exact Or.inl heq
        · exact Or.inr (List.mem_cons.mpr (Or.inr hmem))
      · rw [if_neg h2] at h
        simp only [List.mem_cons] at h
        rcases h with heq | hmem
        · exact Or.inr (List.mem_cons.mpr (Or.inl heq))
        · rcases ih hmem with h' | h'
          · exact Or.inl h'
          · exact Or.inr (List.mem_cons.mpr (Or.inr h'))

theorem mem_idxRemove {idx : Index} {k : String}
    {kp : String × CommandPosition} (h : kp ∈ idxRemove idx k) : kp ∈ idx := by
  induction idx with
  | nil =>
    simp [idxRemove] at h
  | cons kp0 rest ih =>
    obtain ⟨k0, p0⟩ := kp0
    simp only [idxRemove] at h
    by_cases h1 : k0 = k
    · rw [if_pos h1] at h
      exact List.mem_cons.mpr (Or.inr h)
    · rw [if_neg h1] at h
      simp only [List.mem_cons] at h
      rcases h with heq | hmem
      · exact List.mem_cons.mpr (Or.inl heq)
      · exact List.mem_cons.mpr (Or.inr (ih hmem))

theorem keysSorted_insert {idx : Index} (hs : KeysSorted idx)
    (k : String) (p : CommandPosition) : KeysSorted (idxInsert idx k p) := by
  induction idx with
  | nil => simp [idxInsert, KeysSorted]
  | cons kp0 rest ih =>
    obtain ⟨k0, p0⟩ := kp0
    rw [KeysSorted, List.pairwise_cons] at hs
    simp only [idxInsert]
    by_cases h1 : strLt k k0 = true
    · rw [if_pos h1, KeysSorted, List.pairwise_cons]
      constructor
      · intro kp hkp
        rcases List.mem_cons.mp hkp with heq | hmem
        · simp [heq, h1]
        · exact strLt_trans h1 (hs.1 kp hmem)
      · exact List.Pairwise.cons hs.1 hs.2
    · rw [if_neg h1]
      by_cases h2 : k = k0
      · subst h2
        rw [if_pos rfl, KeysSorted, List.pairwise_cons]
        exact ⟨hs.1, hs.2⟩
      · rw [if_neg h2, KeysSorted, List.pairwise_cons]
        constructor
        · intro kp hkp
          rcases mem_idxInsert hkp with heq | hmem
          · have hlt : strLt k0 k = true := by
              cases hb : strLt k0 k with
              | true => rfl
              | false =>
                have hfalse : strLt k k0 = false := by
                  cases hc : strLt k k0 with
                  | true => exact absurd hc h1
                  | false => rfl
                exact absurd (strLt_total hfalse hb) h2
            simp [heq, hlt]
          · exact hs.1 kp hmem
        · exact ih hs.2

theorem keysSorted_remove {idx : Index} (hs : KeysSorted idx)
    (k : String) : KeysSorted (idxRemove idx k) := by
  induction idx with
  | nil => simp [idxRemove, KeysSorted]
  | cons kp0 rest ih =>
    obtain ⟨k0, p0⟩ := kp0
    rw [KeysSorted, List.pairwise_cons] at hs
    simp only [idxRemove]
    by_cases h1 : k0 = k
    · simp only [h1, if_true]
      exact hs.2
    · simp only [h1, if_false]
      rw [KeysSorted, List.pairwise_cons]
      exact ⟨fun kp hkp => hs.1 kp (mem_idxRemove hkp), ih hs.2⟩

/-- First occurrence wins: a sorted index's members are exactly its
lookups. -/
theorem idxGet_of_mem {idx : Index} (hs : KeysSorted idx)
    {kp : String × CommandPosition} (h : kp ∈ idx) :
    idxGet idx kp.1 = some kp.2 := by
  induction idx with
  | nil => simp at h
  | cons kp0 rest ih =>
    obtain ⟨k0, p0⟩ := kp0
    rw [KeysSorted, List.pairwise_cons] at hs
    rcases List.mem_cons.mp h with heq | hmem
    · subst heq
      simp [idxGet]
    · have hk : k0 ≠ kp.1 := strLt_ne (hs.1 kp hmem)
      simp only [idxGet, hk, if_false]
      exact ih hs.2 hmem

theorem idxGet_mem {idx : Index} {k : String} {p : CommandPosition}
    (h : idxGet idx k = some p) : (k, p) ∈ idx := by
  induction idx with
  | nil => simp [idxGet] at h
  | cons kp0 rest ih =>
    obtain ⟨k0, p0⟩ := kp0
    simp only [idxGet] at h
    by_cases h1 : k0 = k
    · subst h1
      rw [if_pos rfl] at h
      cases h
      simp
    · rw [if_neg h1] at h
      exact List.mem_cons.mpr (Or.inr (ih h))

/-! ### Basic facts about the segment directory -/

theorem lookupGen_mem {segs : Segments} {g : Nat} {f : LogFile}
    (h : lookupGen segs g = some f) : (g, f) ∈ segs := by
  induction segs with
  | nil => simp [lookupGen] at h
  | cons gf rest ih =>
    obtain ⟨g0, f0⟩ := gf
    simp only [lookupGen] at h
    by_cases h1 : g0 = g
    · subst h1
      rw [if_pos rfl] at h
      cases h
      simp
    · rw [if_neg h1] at h
      exact List.mem_cons.mpr (Or.inr (ih h))

theorem lookupGen_append_left {segs : Segments} {g : Nat} {f : LogFile}
    (h : lookupGen segs g = some f) (rest : Segments) :
    lookupGen (segs ++ rest) g = some f := by
  induction segs with
  | nil => simp [lookupGen] at h
  | cons gf segs ih =>
    obtain ⟨g0, f0⟩ := gf
    simp only [lookupGen] at h ⊢
    by_cases h1 : g0 = g
    · rwa [if_pos h1] at h ⊢
    · rw [if_neg h1] at h ⊢
      exact ih h

theorem lookupGen_append {segs rest : Segments} {g : Nat} :
    lookupGen (segs ++ rest) g =
      match lookupGen segs g with
      | some f => some f
      | none => lookupGen rest g := by
  induction segs with
  | nil => simp [lookupGen]
  | cons gf segs ih =>
    obtain ⟨g0, f0⟩ := gf
    simp only [lookupGen, List.cons_append]
    by_cases h1 : g0 = g
    · rw [if_pos h1, if_pos h1]
    · rw [if_neg h1, if_neg h1]
      exact ih

theorem lookupGen_eq_none {segs : Segments} {g : Nat}
    (h : ∀ gf ∈ segs, gf.1 ≠ g) : lookupGen segs g = none := by
  induction segs with
  | nil => rfl
  | cons gf rest ih =>
    obtain ⟨g0, f0⟩ := gf
    have : g0 ≠ g := h (g0, f0) (by simp)
    simp only [lookupGen, this, if_false]
    exact ih fun gf hgf => h gf (by simp [hgf])

/-- `insGen` appends at the end when the new generation is larger than
every present one. -/
theorem insGen_eq_append {segs : Segments} {g : Nat}
    (h : ∀ gf ∈ segs, gf.1 < g) (f : LogFile) :
    insGen segs g f = segs ++ [(g, f)] := by
  induction segs with
  | nil => rfl
  | cons gf0 rest ih =>
    obtain ⟨g0, f0⟩ := gf0
    have hg0 : g0 < g := h (g0, f0) (by simp)
    have h1 : ¬g < g0 := by omega
    have h2 : g ≠ g0 := by omega
    simp only [insGen, h1, if_false, h2, if_false, List.cons_append,
      List.cons.injEq, true_and]
    exact ih fun gf hgf => h gf (by simp [hgf])

/-- `insGen` replaces in place when the generation is present past a
prefix of smaller generations. -/
theorem insGen_replace {most : Segments} {g : Nat}
    (h : ∀ gf ∈ most, gf.1 < g) (f0 f : LogFile) (rest : Segments) :
    insGen (most ++ (g, f0) :: rest) g f = most ++ (g, f) :: rest := by
  induction most with
  | nil =>
    have h1 : ¬g < g := by omega
    simp [insGen, h1]
  | cons gf0 most ih =>
    obtain ⟨g0, fg0⟩ := gf0
    have hg0 : g0 < g := h (g0, fg0) (by simp)
    have h1 : ¬g < g0 := by omega
    have h2 : g ≠ g0 := by omega
    simp only [List.cons_append, insGen, h1, if_false, h2, if_false,
      List.cons.injEq, true_and]
    exact ih fun gf hgf => h gf (by simp [hgf])

theorem map_fst_appendActive (segs : Segments) (g : Nat) (c : Command) :
    (appendActive segs g c).map Prod.fst = segs.map Prod.fst := by
  simp [appendActive, List.map_map, Function.comp]

theorem appendActive_eq {most : Segments} {g : Nat}
    (h : ∀ gf ∈ most, gf.1 ≠ g) (f : LogFile) (c : Command) :
    appendActive (most ++ [(g, f)]) g c = most ++ [(g, f ++ [c])] := by
  induction most with
  | nil => simp [appendActive]
  | cons gf0 most ih =>
    obtain ⟨g0, f0⟩ := gf0
    have hg0 : g0 ≠ g := h (g0, f0) (by simp)
    have := ih fun gf hgf => h gf (by simp [hgf])
    simp only [appendActive, List.map_cons, List.cons_append] at this ⊢
    simp [hg0, this]

/-- A well-formed directory splits as smaller generations followed by
the active segment. -/
theorem segs_split_active {segs : Segments} {cg : Nat} {f : LogFile}
    (hsort : List.Pairwise (· < ·) (segs.map Prod.fst))
    (hle : ∀ gf ∈ segs, gf.1 ≤ cg)
    (hlook : lookupGen segs cg = some f) :
    ∃ most, segs = most ++ [(cg, f)] ∧ ∀ gf ∈ most, gf.1 < cg := by
  induction segs with
  | nil => simp [lookupGen] at hlook
  | cons gf0 rest ih =>
    obtain ⟨g0, f0⟩ := gf0
    simp only [List.map_cons, List.pairwise_cons] at hsort
    simp only [lookupGen] at hlook
    by_cases h1 : g0 = cg
    · subst h1
      rw [if_pos rfl] at hlook
      cases hlook
      have hrest : rest = [] := by
        cases rest with
        | nil => rfl
        | cons gf1 rest' =>
          exfalso
          have hgt : g0 < gf1.1 := hsort.1 gf1.1 (by simp)
          have hle1 : gf1.1 ≤ g0 := hle gf1 (by simp)
          omega
      subst hrest
      exact ⟨[], rfl, by simp⟩
    · rw [if_neg h1] at hlook
      obtain ⟨most, hmost, hlt⟩ := ih hsort.2
        (fun gf hgf => hle gf (by simp [hgf])) hlook
      refine ⟨(g0, f0) :: most, by simp [hmost], ?_⟩
      intro gf hgf
      rcases List.mem_cons.mp hgf with heq | hmem
      · subst heq
        have : g0 ≤ cg := hle (g0, f0) (by simp)
        simp only []
        omega
      · exact hlt gf hmem

/-! ### Reads are stable under appends and fresh segments -/

theorem lookupGen_appendActive_self (segs : Segments) (g : Nat) (c : Command) :
    lookupGen (appendActive segs g c) g = (lookupGen segs g).map (fun f => f ++ [c]) := by
  induction segs with
  | nil => rfl
  | cons gf rest ih =>
    obtain ⟨g0, f0⟩ := gf
    simp only [appendActive, List.map_cons, lookupGen] at ih ⊢
    by_cases h1 : g0 = g
    · simp [h1]
    · simp [h1, ih]

theorem lookupGen_appendActive_ne (segs : Segments) {g gen : Nat}
    (h : gen ≠ g) (c : Command) :
    lookupGen (appendActive segs g c) gen = lookupGen segs gen := by
  induction segs with
  | nil => rfl
  | cons gf rest ih =>
    obtain ⟨g0, f0⟩ := gf
    simp only [appendActive, List.map_cons, lookupGen] at ih ⊢
    by_cases h2 : g0 = gen
    · subst h2
      simp [h]
    · simp [h2, ih]

theorem readState_appendActive {segs : Segments} {p : CommandPosition}
    {c : Command} (h : readState segs p = some c) (g : Nat) (d : Command) :
    readState (appendActive segs g d) p = some c := by
  unfold readState at h ⊢
  by_cases hg : p.gen = g
  · rw [hg] at h ⊢
    rw [lookupGen_appendActive_self]
    cases hl : lookupGen segs g with
    | none => rw [hl] at h; simp at h
    | some f =>
      rw [hl] at h
      simp only [Option.map_some']
      exact readAt_append_left h [d]
  · rw [lookupGen_appendActive_ne segs hg d]
    exact h

theorem entryGood_iff (segs : Segments) (k : String) (p : CommandPosition) :
    entryGood segs k p = true ↔
      ∃ v, readState segs p = some (Command.set k v) := by
  unfold entryGood
  cases h : readState segs p with
  | none => simp
  | some c =>
    cases c with
    | set k' v =>
      simp only [decide_eq_true_eq]
      constructor
      · intro hk
        exact ⟨v, by rw [hk]⟩
      · rintro ⟨v', hv⟩
        cases hv
        rfl
    | remove k' => simp

/-! ### Replay (`build_index`) lemmas -/

theorem buildIndexLoop_nil (gen pos : Nat) (idx : Index) (u : Nat) :
    buildIndexLoop gen [] pos idx u = (idx, u) := rfl

theorem buildIndexLoop_cons_set (gen : Nat) (k v : String) (rest : LogFile)
    (pos : Nat) (idx : Index) (u : Nat) :
    buildIndexLoop gen (Command.set k v :: rest) pos idx u =
      buildIndexLoop gen rest (pos + encLen (Command.set k v))
        (idxInsert idx k ⟨pos, encLen (Command.set k v), gen⟩)
        (match idxGet idx k with
          | some old => u + old.length
          | none => u) := rfl

theorem buildIndexLoop_cons_remove (gen : Nat) (k : String) (rest : LogFile)
    (pos : Nat) (idx : Index) (u : Nat) :
    buildIndexLoop gen (Command.remove k :: rest) pos idx u =
      buildIndexLoop gen rest (pos + encLen (Command.remove k))
        (idxRemove idx k)
        (if (idxGet idx k).isSome then u + encLen (Command.remove k) else u) := rfl

theorem buildIndexLoop_append (gen : Nat) (f g : LogFile) :
    ∀ (pos : Nat) (idx : Index) (u : Nat),
    buildIndexLoop gen (f ++ g) pos idx u =
      buildIndexLoop gen g (pos + fileLen f)
        (buildIndexLoop gen f pos idx u).1 (buildIndexLoop gen f pos idx u).2 := by
  induction f with
  | nil => intro pos idx u; simp [buildIndexLoop_nil, fileLen]
  | cons c f ih =>
    intro pos idx u
    cases c with
    | set k v =>
      rw [List.cons_append, buildIndexLoop_cons_set, buildIndexLoop_cons_set, ih,
        fileLen_cons, ← Nat.add_assoc]
    | remove k =>
      rw [List.cons_append, buildIndexLoop_cons_remove, buildIndexLoop_cons_remove, ih,
        fileLen_cons, ← Nat.add_assoc]

theorem replayAll_snoc (segs : Segments) (gf : Nat × LogFile) :
    replayAll (segs ++ [gf]) =
      buildIndexLoop gf.1 gf.2 0 (replayAll segs).1 (replayAll segs).2 := by
  unfold replayAll
  rw [List.foldl_append]
  rfl

/-! ### Specification of the core of `set` -/

theorem setCore_spec {s : KvState} {k v : String} {s₁ : KvState} {evs : List Event}
    (hwf : WF s) (h : setCore s k v = some (s₁, evs)) :
    WF s₁ ∧ s₁.currentGen = s.currentGen ∧
    get s₁ k = Except.ok (some v) ∧
    ((replayAll s.segments).1 = s.index → (replayAll s₁.segments).1 = s₁.index) := by
  obtain ⟨hsort, hact, hle, hks, hent⟩ := hwf
  obtain ⟨f, hl⟩ := Option.isSome_iff_exists.mp hact
  simp only [setCore, hl, Option.some.injEq, Prod.mk.injEq] at h
  obtain ⟨h1, h2⟩ := h
  subst h1
  obtain ⟨most, hseg, hmost⟩ := segs_split_active hsort hle hl
  have hmost' : ∀ gf ∈ most, gf.1 ≠ s.currentGen := fun gf hgf => ne_of_lt (hmost gf hgf)
  have happ : appendActive s.segments s.currentGen (Command.set k v)
      = most ++ [(s.currentGen, f ++ [Command.set k v])] := by
    rw [hseg]; exact appendActive_eq hmost' f _
  have hread : readState (appendActive s.segments s.currentGen (Command.set k v))
      ⟨fileLen f, encLen (Command.set k v), s.currentGen⟩ = some (Command.set k v) := by
    unfold readState
    simp only
    rw [lookupGen_appendActive_self, hl]
    simp only [Option.map_some']
    exact readAt_concat_self f (Command.set k v) []
  refine ⟨⟨?_, ?_, ?_, ?_, ?_⟩, rfl, ?_, ?_⟩
  · simpa only [map_fst_appendActive] using hsort
  · simp only
    rw [lookupGen_appendActive_self, hl]
    rfl
  · intro gf hgf
    have hmem : gf.1 ∈ (appendActive s.segments s.currentGen (Command.set k v)).map Prod.fst :=
      List.mem_map_of_mem Prod.fst hgf
    rw [map_fst_appendActive] at hmem
    obtain ⟨gf0, hgf0, heq⟩ := List.mem_map.mp hmem
    simp only
    rw [← heq]
    exact hle gf0 hgf0
  · exact keysSorted_insert hks k _
  · intro kp hkp
    rcases mem_idxInsert hkp with heq | hmem
    · subst heq
      exact (entryGood_iff _ _ _).mpr ⟨v, hread⟩
    · obtain ⟨v0, hv0⟩ := (entryGood_iff _ _ _).mp (hent kp hmem)
      exact (entryGood_iff _ _ _).mpr ⟨v0, readState_appendActive hv0 _ _⟩
  · unfold get
    simp only [idxGet_insert_self, hread]
  · intro hrep
    simp only
    rw [happ, replayAll_snoc]
    simp only
    rw [hseg, replayAll_snoc] at hrep
    have hstep := buildIndexLoop_append s.currentGen f [Command.set k v] 0
      (replayAll most).1 (replayAll most).2
    rw [hstep]
    simp only [buildIndexLoop]
    rw [hrep]
    simp [Nat.zero_add]

/-! ### Specification of `remove` -/

theorem doRemove_spec {s : KvState} {k : String} {p : CommandPosition}
    (hwf : WF s) (hp : idxGet s.index k = some p) :
    ∃ s', doRemove s k = (s', none) ∧ WF s' ∧ s'.currentGen = s.currentGen ∧
      s'.uncompactedSize = s.uncompactedSize + p.length ∧
      get s' k = Except.ok none ∧
      ((replayAll s.segments).1 = s.index → (replayAll s'.segments).1 = s'.index) := by
  obtain ⟨hsort, hact, hle, hks, hent⟩ := hwf
  obtain ⟨f, hl⟩ := Option.isSome_iff_exists.mp hact
  obtain ⟨most, hseg, hmost⟩ := segs_split_active hsort hle hl
  have hmost' : ∀ gf ∈ most, gf.1 ≠ s.currentGen := fun gf hgf => ne_of_lt (hmost gf hgf)
  have happ : appendActive s.segments s.currentGen (Command.remove k)
      = most ++ [(s.currentGen, f ++ [Command.remove k])] := by
    rw [hseg]; exact appendActive_eq hmost' f _
  refine ⟨⟨appendActive s.segments s.currentGen (Command.remove k), s.currentGen,
      s.uncompactedSize + p.length, idxRemove s.index k⟩,
    ?_, ⟨?_, ?_, ?_, ?_, ?_⟩, rfl, rfl, ?_, ?_⟩
  · unfold doRemove
    rw [hp]
  · simpa only [map_fst_appendActive] using hsort
  · simp only
    rw [lookupGen_appendActive_self, hl]
    rfl
  · intro gf hgf
    have hmem : gf.1 ∈ (appendActive s.segments s.currentGen (Command.remove k)).map Prod.fst :=
      List.mem_map_of_mem Prod.fst hgf
    rw [map_fst_appendActive] at hmem
    obtain ⟨gf0, hgf0, heq⟩ := List.mem_map.mp hmem
    simp only
    rw [← heq]
    exact hle gf0 hgf0
  · exact keysSorted_remove hks k
  · intro kp hkp
    obtain ⟨v0, hv0⟩ := (entryGood_iff _ _ _).mp (hent kp (mem_idxRemove hkp))
    exact (entryGood_iff _ _ _).mpr ⟨v0, readState_appendActive hv0 _ _⟩
  · unfold get
    simp only [idxGet_remove_self hks k]
  · intro hrep
    simp only
    rw [happ, replayAll_snoc]
    simp only
    rw [hseg, replayAll_snoc] at hrep
    have hstep := buildIndexLoop_append s.currentGen f [Command.remove k] 0
      (replayAll most).1 (replayAll most).2
    rw [hstep]
    rw [buildIndexLoop_cons_remove, buildIndexLoop_nil]
    rw [hrep]

/-! ### Helpers for the compaction proof -/

theorem readState_append {segs : Segments} {p : CommandPosition} {c : Command}
    (h : readState segs p = some c) (rest : Segments) :
    readState (segs ++ rest) p = some c := by
  unfold readState at h ⊢
  cases hl : lookupGen segs p.gen with
  | none => rw [hl] at h; simp at h
  | some f =>
    rw [hl] at h
    rw [lookupGen_append_left hl rest]
    exact h

theorem readState_len_eq {segs : Segments} {p : CommandPosition} {c : Command}
    (h : readState segs p = some c) : p.length = encLen c := by
  unfold readState at h
  cases hl : lookupGen segs p.gen with
  | none => rw [hl] at h; simp at h
  | some f =>
    rw [hl] at h
    exact readAt_len_eq h

theorem idxGet_eq_none_forall {idx : Index} {k : String}
    (h : idxGet idx k = none) : ∀ kp ∈ idx, kp.1 ≠ k := by
  induction idx with
  | nil => simp
  | cons kp0 rest ih =>
    obtain ⟨k0, p0⟩ := kp0
    simp only [idxGet] at h
    by_cases h1 : k0 = k
    · rw [if_pos h1] at h; simp at h
    · rw [if_neg h1] at h
      intro kp hkp
      rcases List.mem_cons.mp hkp with heq | hmem
      · subst heq; exact h1
      · exact ih h kp hmem

theorem idxGet_cons_ne {k k' : String} (h : k ≠ k') (q : CommandPosition)
    (idx : Index) : idxGet ((k, q) :: idx) k' = idxGet idx k' := by
  simp [idxGet, h]

theorem idxInsert_cons_lt {k k' : String} (h : strLt k k' = true) (q p : CommandPosition)
    (idx : Index) : idxInsert ((k, q) :: idx) k' p = (k, q) :: idxInsert idx k' p := by
  have h1 : strLt k' k = false := strLt_asymm h
  have h2 : k' ≠ k := Ne.symm (strLt_ne h)
  simp [idxInsert, h1, h2]

theorem idxRemove_cons_ne {k k' : String} (h : k ≠ k') (q : CommandPosition)
    (idx : Index) : idxRemove ((k, q) :: idx) k' = (k, q) :: idxRemove idx k' := by
  simp [idxRemove, h]

theorem buildIndexLoop_cons_key_lt (cg : Nat) (k : String) (q : CommandPosition) :
    ∀ (recs : LogFile) (pos : Nat) (idx : Index) (u : Nat),
    (∀ c ∈ recs, strLt k (cmdKey c) = true) →
    buildIndexLoop cg recs pos ((k, q) :: idx) u
      = ((k, q) :: (buildIndexLoop cg recs pos idx u).1,
         (buildIndexLoop cg recs pos idx u).2) := by
  intro recs
  induction recs with
  | nil => intro pos idx u _; simp [buildIndexLoop_nil]
  | cons c recs ih =>
    intro pos idx u hlt
    cases c with
    | set k' v =>
      have hk : strLt k k' = true := hlt (Command.set k' v) (by simp)
      rw [buildIndexLoop_cons_set, buildIndexLoop_cons_set,
        idxGet_cons_ne (strLt_ne hk), idxInsert_cons_lt hk]
      exact ih _ _ _ fun c hc => hlt c (by simp [hc])
    | remove k' =>
      have hk : strLt k k' = true := hlt (Command.remove k') (by simp [cmdKey])
      rw [buildIndexLoop_cons_remove, buildIndexLoop_cons_remove,
        idxGet_cons_ne (strLt_ne hk), idxRemove_cons_ne (strLt_ne hk)]
      exact ih _ _ _ fun c hc => hlt c (by simp [hc])

theorem foldl_idxInsert_cons_lt (k : String) (q : CommandPosition) :
    ∀ (ents : List (String × CommandPosition)) (idx : Index),
    (∀ e ∈ ents, strLt k e.1 = true) →
    List.foldl (fun i e => idxInsert i e.1 e.2) ((k, q) :: idx) ents
      = (k, q) :: List.foldl (fun i e => idxInsert i e.1 e.2) idx ents := by
  intro ents
  induction ents with
  | nil => intro idx _; rfl
  | cons e ents ih =>
    intro idx hlt
    have hk : strLt k e.1 = true := hlt e (by simp)
    simp only [List.foldl_cons]
    rw [idxInsert_cons_lt hk]
    exact ih _ fun e' he' => hlt e' (by simp [he'])

theorem mem_recsOf {segs : Segments} {c' : Command} :
    ∀ {todo : List (String × CommandPosition)}, c' ∈ recsOf segs todo →
    ∃ kp ∈ todo, readState segs kp.2 = some c' := by
  intro todo
  induction todo with
  | nil => intro h; simp [recsOf] at h
  | cons kp rest ih =>
    intro h
    simp only [recsOf] at h
    cases hr : readState segs kp.2 with
    | none =>
      rw [hr] at h
      simp only [List.nil_append] at h
      obtain ⟨kp', hkp', hread⟩ := ih h
      exact ⟨kp', by simp [hkp'], hread⟩
    | some c =>
      rw [hr] at h
      rcases List.mem_cons.mp h with heq | hmem
      · exact ⟨kp, by simp, by rw [hr, heq]⟩
      · obtain ⟨kp', hkp', hread⟩ := ih hmem
        exact ⟨kp', by simp [hkp'], hread⟩

theorem mem_newEnts {cg : Nat} {e : String × CommandPosition} :
    ∀ {todo : List (String × CommandPosition)} {pos : Nat},
    e ∈ newEnts cg todo pos → ∃ kp ∈ todo, e.1 = kp.1 := by
  intro todo
  induction todo with
  | nil => intro pos h; simp [newEnts] at h
  | cons kp rest ih =>
    intro pos h
    obtain ⟨k, p⟩ := kp
    simp only [newEnts] at h
    rcases List.mem_cons.mp h with heq | hmem
    · exact ⟨(k, p), by simp, by rw [heq]⟩
    · obtain ⟨kp', hkp', hk⟩ := ih hmem
      exact ⟨kp', by simp [hkp'], hk⟩

theorem insGen_append_right {most : Segments} {g : Nat}
    (h : ∀ gf ∈ most, gf.1 < g) (rest : Segments) (f : LogFile) :
    insGen (most ++ rest) g f = most ++ insGen rest g f := by
  induction most with
  | nil => rfl
  | cons gf0 most ih =>
    obtain ⟨g0, f0⟩ := gf0
    have hg0 : g0 < g := h (g0, f0) (by simp)
    have h1 : ¬g < g0 := by omega
    have h2 : g ≠ g0 := by omega
    simp only [List.cons_append, insGen, h1, if_false, h2, if_false,
      List.cons.injEq, true_and]
    exact ih fun gf hgf => h gf (by simp [hgf])

/-- Replaying the compacted records rebuilds exactly the index the
compaction loop produces. -/
theorem replay_eq_fold (cg : Nat) (segs : Segments) :
    ∀ (todo : List (String × CommandPosition)) (pos u : Nat),
    KeysSorted todo →
    (∀ kp ∈ todo, ∃ v, readState segs kp.2 = some (Command.set kp.1 v)) →
    (buildIndexLoop cg (recsOf segs todo) pos [] u).1
      = List.foldl (fun i e => idxInsert i e.1 e.2) todo (newEnts cg todo pos) := by
  intro todo
  induction todo with
  | nil => intro pos u _ _; simp [recsOf, newEnts, buildIndexLoop_nil]
  | cons kp rest ih =>
    intro pos u hs hgood
    obtain ⟨k, p⟩ := kp
    rw [KeysSorted, List.pairwise_cons] at hs
    obtain ⟨v, hv⟩ := hgood (k, p) (by simp)
    have hlen : p.length = encLen (Command.set k v) := readState_len_eq hv
    have hrecs : recsOf segs ((k, p) :: rest)
        = Command.set k v :: recsOf segs rest := by
      simp [recsOf, hv]
    rw [hrecs, buildIndexLoop_cons_set]
    have hgetnil : idxGet ([] : Index) k = none := rfl
    have hkeys : ∀ c ∈ recsOf segs rest, strLt k (cmdKey c) = true := by
      intro c hc
      obtain ⟨kp', hkp', hread⟩ := mem_recsOf hc
      obtain ⟨v', hv'⟩ := hgood kp' (by simp [hkp'])
      rw [hv'] at hread
      cases hread
      exact hs.1 kp' hkp'
    have hinsnil : idxInsert ([] : Index) k ⟨pos, encLen (Command.set k v), cg⟩
        = [(k, ⟨pos, encLen (Command.set k v), cg⟩)] := rfl
    rw [hinsnil, buildIndexLoop_cons_key_lt cg k _ _ _ _ _ hkeys]
    simp only
    have hihyp : ∀ kp' ∈ rest, ∃ v', readState segs kp'.2 = some (Command.set kp'.1 v') :=
      fun kp' hkp' => hgood kp' (by simp [hkp'])
    have hmatch : (match idxGet ([] : Index) k with
        | some old => u + old.length
        | none => u) = u := rfl
    rw [hmatch, ih (pos + encLen (Command.set k v)) u hs.2 hihyp]
    simp only [newEnts, List.foldl_cons]
    have hhead : idxInsert ((k, p) :: rest) k ⟨pos, p.length, cg⟩
        = (k, ⟨pos, p.length, cg⟩) :: rest := by
      simp [idxInsert, strLt_irrefl]
    rw [hhead]
    have hents : ∀ e ∈ newEnts cg rest (pos + p.length), strLt k e.1 = true := by
      intro e he
      obtain ⟨kp', hkp', hk⟩ := mem_newEnts he
      rw [hk]
      exact hs.1 kp' hkp'
    rw [foldl_idxInsert_cons_lt k _ _ _ hents]
    rw [hlen]

/-- Invariant of the compaction copy loop: it succeeds on valid
entries, copies exactly the dereferenced records, folds the new entries
into the index, and emits no flush events. -/
theorem compactLoop_master (cg : Nat) (segs : Segments) :
    ∀ (todo : List (String × CommandPosition)) (buf : LogFile) (idx : Index)
      (evs : List Event),
    KeysSorted todo → KeysSorted idx →
    (∀ kp ∈ todo, entryGood segs kp.1 kp.2 = true) →
    ∃ recs idx' evs' pos',
      compactLoop cg segs todo (fileLen buf) buf idx evs
        = some (buf ++ recs, idx', pos', evs ++ evs')
      ∧ recs = recsOf segs todo
      ∧ idx' = List.foldl (fun i e => idxInsert i e.1 e.2) idx (newEnts cg todo (fileLen buf))
      ∧ (∀ k, (∀ kp ∈ todo, kp.1 ≠ k) → idxGet idx' k = idxGet idx k)
      ∧ (∀ kp ∈ todo, ∃ v q, idxGet idx' kp.1 = some q ∧ q.gen = cg
          ∧ q.length = kp.2.length
          ∧ readState segs kp.2 = some (Command.set kp.1 v)
          ∧ readAt (buf ++ recs) q.position q.length = some (Command.set kp.1 v))
      ∧ KeysSorted idx'
      ∧ (∀ e ∈ evs', ∀ g, e ≠ Event.flushSeg g) := by
  intro todo
  induction todo with
  | nil =>
    intro buf idx evs _ hidx _
    exact ⟨[], idx, [], fileLen buf, by simp [compactLoop], by simp [recsOf],
      by simp [newEnts], fun k _ => rfl, by simp, hidx, by simp⟩
  | cons kp rest ih =>
    intro buf idx evs hs hidx hgood
    obtain ⟨k, p⟩ := kp
    rw [KeysSorted, List.pairwise_cons] at hs
    obtain ⟨v, hv⟩ := (entryGood_iff _ _ _).mp (hgood (k, p) (by simp))
    have hlen : p.length = encLen (Command.set k v) := readState_len_eq hv
    have hstep : compactLoop cg segs ((k, p) :: rest) (fileLen buf) buf idx evs
        = compactLoop cg segs rest (fileLen buf + p.length) (buf ++ [Command.set k v])
            (idxInsert idx k ⟨fileLen buf, p.length, cg⟩)
            (evs ++ [Event.appendRec cg (fileLen buf) p.length,
                     Event.insertIdx k ⟨fileLen buf, p.length, cg⟩]) := by
      simp [compactLoop, hv]
    have hflb : fileLen (buf ++ [Command.set k v]) = fileLen buf + p.length := by
      rw [fileLen_append, fileLen_cons, fileLen_nil, hlen]
      omega
    obtain ⟨recs', idx', evs'', pos', heq, hrecs, hfold, huntouched, hgood', hks', hnf⟩ :=
      ih (buf ++ [Command.set k v]) (idxInsert idx k ⟨fileLen buf, p.length, cg⟩)
        (evs ++ [Event.appendRec cg (fileLen buf) p.length,
                 Event.insertIdx k ⟨fileLen buf, p.length, cg⟩])
        hs.2 (keysSorted_insert hidx k _)
        (fun kp' hkp' => hgood kp' (by simp [hkp']))
    rw [hflb] at heq
    refine ⟨Command.set k v :: recs', idx',
      [Event.appendRec cg (fileLen buf) p.length,
       Event.insertIdx k ⟨fileLen buf, p.length, cg⟩] ++ evs'', pos', ?_, ?_, ?_, ?_, ?_, hks', ?_⟩
    · rw [hstep, heq]
      simp [List.append_assoc]
    · simp [recsOf, hv, hrecs]
    · rw [hfold]
      simp only [newEnts, List.foldl_cons, hflb]
    · intro k' hk'
      have hne : k ≠ k' := hk' (k, p) (by simp)
      rw [huntouched k' fun kp' hkp' => hk' kp' (by simp [hkp'])]
      exact idxGet_insert_ne idx _ fun hh => hne hh.symm
    · intro kp' hkp'
      rcases List.mem_cons.mp hkp' with heq' | hmem
      · subst heq'
        refine ⟨v, ⟨fileLen buf, p.length, cg⟩, ?_, rfl, rfl, hv, ?_⟩
        · rw [huntouched _ fun kp2 hkp2 => Ne.symm (strLt_ne (hs.1 kp2 hkp2))]
          exact idxGet_insert_self idx _ _
        · simp only
          rw [hlen]
          exact readAt_concat_self buf (Command.set k v) recs'
      · obtain ⟨v', q', hq1, hq2, hq3, hq4, hq5⟩ := hgood' kp' hmem
        refine ⟨v', q', hq1, hq2, hq3, hq4, ?_⟩
        simpa using hq5
    · intro e he g
      rcases List.mem_append.mp he with hin | hin
      · rcases List.mem_cons.mp hin with h1 | h1
        · rw [h1]; intro hcon; cases hcon
        · simp only [List.mem_singleton] at h1
          rw [h1]; intro hcon; cases hcon
      · exact hnf e hin g

/-- Specification of `compact` on a well-formed state: it succeeds,
preserves well-formedness, leaves the uncompacted counter untouched,
replaces the directory by the compact segment plus a fresh active one,
preserves every `get`, and its rebuilt index equals its replay. -/
theorem compact_spec {s : KvState} (hwf : WF s) :
    ∃ s' evs, compact s = some (s', evs) ∧ WF s' ∧
      s'.uncompactedSize = s.uncompactedSize ∧
      s'.currentGen = s.currentGen + 2 ∧
      (∀ k, get s' k = get s k) ∧
      (replayAll s'.segments).1 = s'.index := by
  obtain ⟨hsort, hact, hle, hks, hent⟩ := hwf
  have hltcg : ∀ gf ∈ s.segments, gf.1 < s.currentGen + 1 := by
    intro gf hgf
    have := hle gf hgf
    omega
  have hltng : ∀ gf ∈ s.segments, gf.1 < s.currentGen + 2 := by
    intro gf hgf
    have := hle gf hgf
    omega
  have hw1 : insGen s.segments (s.currentGen + 2) [] = s.segments ++ [(s.currentGen + 2, [])] :=
    insGen_eq_append hltng []
  have hw2 : insGen [(s.currentGen + 2, ([] : LogFile))] (s.currentGen + 1) []
      = [(s.currentGen + 1, []), (s.currentGen + 2, [])] := by
    have h1 : s.currentGen + 1 < s.currentGen + 2 := by omega
    simp [insGen, h1]
  have hsw : insGen (insGen s.segments (s.currentGen + 2) []) (s.currentGen + 1) []
      = s.segments ++ [(s.currentGen + 1, []), (s.currentGen + 2, [])] := by
    rw [hw1, insGen_append_right hltcg, hw2]
  have hgoodW : ∀ kp ∈ s.index,
      entryGood (s.segments ++ [(s.currentGen + 1, []), (s.currentGen + 2, [])]) kp.1 kp.2
        = true := by
    intro kp hkp
    obtain ⟨v0, hv0⟩ := (entryGood_iff _ _ _).mp (hent kp hkp)
    exact (entryGood_iff _ _ _).mpr ⟨v0, readState_append hv0 _⟩
  obtain ⟨recs, idx', evs', pos', heq, hrecs, hfold, huntouched, hgood', hks', hnf⟩ :=
    compactLoop_master (s.currentGen + 1)
      (s.segments ++ [(s.currentGen + 1, []), (s.currentGen + 2, [])])
      s.index [] s.index [] hks hks hgoodW
  simp only [List.nil_append] at heq
  have h0 : fileLen ([] : LogFile) = 0 := rfl
  rw [h0] at heq hfold
  have hcompact : compact s =
      some (⟨((insGen (s.segments ++ [(s.currentGen + 1, []), (s.currentGen + 2, [])])
                (s.currentGen + 1) recs).filter (fun gf => s.currentGen + 1 ≤ gf.1)),
              s.currentGen + 2, s.uncompactedSize, idx'⟩,
            evs' ++ [Event.flushSeg (s.currentGen + 1)]) := by
    simp only [compact]
    rw [hsw, heq]
  have hflush : insGen (s.segments ++ [(s.currentGen + 1, []), (s.currentGen + 2, [])])
      (s.currentGen + 1) recs
      = s.segments ++ [(s.currentGen + 1, recs), (s.currentGen + 2, [])] := by
    exact insGen_replace hltcg [] recs [(s.currentGen + 2, [])]
  have hfinal : ((s.segments ++ [(s.currentGen + 1, recs), (s.currentGen + 2, [])]).filter
      (fun gf => s.currentGen + 1 ≤ gf.1))
      = [(s.currentGen + 1, recs), (s.currentGen + 2, [])] := by
    rw [List.filter_append]
    have hleft : s.segments.filter (fun gf => s.currentGen + 1 ≤ gf.1) = [] := by
      rw [List.filter_eq_nil_iff]
      intro gf hgf
      have := hltcg gf hgf
      simp only [decide_eq_true_eq]
      omega
    rw [hleft]
    simp
  rw [hflush, hfinal] at hcompact
  -- facts about the final directory
  have hlook_cg : lookupGen [(s.currentGen + 1, recs), (s.currentGen + 2, ([] : LogFile))]
      (s.currentGen + 1) = some recs := by
    simp [lookupGen]
  have hlook_ng : lookupGen [(s.currentGen + 1, recs), (s.currentGen + 2, ([] : LogFile))]
      (s.currentGen + 2) = some [] := by
    have hne : s.currentGen + 1 ≠ s.currentGen + 2 := by omega
    simp [lookupGen, hne]
  have hgoodFin : ∀ kp ∈ s.index, ∃ v q, idxGet idx' kp.1 = some q
      ∧ readState [(s.currentGen + 1, recs), (s.currentGen + 2, [])] q
        = some (Command.set kp.1 v)
      ∧ readState s.segments kp.2 = some (Command.set kp.1 v) := by
    intro kp hkp
    obtain ⟨v, q, hq1, hq2, hq3, hq4, hq5⟩ := hgood' kp hkp
    obtain ⟨v0, hv0⟩ := (entryGood_iff _ _ _).mp (hent kp hkp)
    have hv0W := readState_append hv0 [(s.currentGen + 1, []), (s.currentGen + 2, [])]
    rw [hq4] at hv0W
    simp only [Option.some.injEq, Command.set.injEq] at hv0W
    obtain ⟨-, hveq⟩ := hv0W
    subst hveq
    refine ⟨v, q, hq1, ?_, hv0⟩
    unfold readState
    rw [hq2, hlook_cg]
    simpa using hq5
  refine ⟨_, _, hcompact, ⟨?_, ?_, ?_, hks', ?_⟩, rfl, rfl, ?_, ?_⟩
  · have hne : s.currentGen + 1 < s.currentGen + 2 := by omega
    simp [hne]
  · simp only
    rw [hlook_ng]
    rfl
  · intro gf hgf
    simp only [List.mem_cons, List.mem_singleton] at hgf
    rcases hgf with h1 | h1 | h1
    · rw [h1]; simp
    · rw [h1]
    · simp at h1
  · intro kp hkp
    have hlk : idxGet idx' kp.1 = some kp.2 := idxGet_of_mem hks' hkp
    by_cases hall : ∀ kp0 ∈ s.index, kp0.1 ≠ kp.1
    · rw [huntouched kp.1 hall, idxGet_eq_none_of_forall_ne s.index kp.1 hall] at hlk
      cases hlk
    · push_neg at hall
      obtain ⟨kp0, hkp0, hkey⟩ := hall
      obtain ⟨v, q, hq1, hq2, hq3⟩ := hgoodFin kp0 hkp0
      rw [hkey] at hq1 hq2
      rw [hlk] at hq1
      cases hq1
      exact (entryGood_iff _ _ _).mpr ⟨v, hq2⟩
  · intro k
    cases hk : idxGet s.index k with
    | none =>
      have hall := idxGet_eq_none_forall hk
      unfold get
      simp only [huntouched k hall, hk]
    | some p =>
      have hmem : (k, p) ∈ s.index := idxGet_mem hk
      obtain ⟨v, q, hq1, hq2, hq3⟩ := hgoodFin (k, p) hmem
      simp only at hq1 hq2 hq3
      have hgs : get s k = Except.ok (some v) := by
        unfold get
        simp only [hk, hq3]
      have hgs' : get ⟨[(s.currentGen + 1, recs), (s.currentGen + 2, [])],
          s.currentGen + 2, s.uncompactedSize, idx'⟩ k = Except.ok (some v) := by
        unfold get
        simp only [hq1, hq2]
      rw [hgs, hgs']
  · simp only
    unfold replayAll
    simp only [List.foldl_cons, List.foldl_nil]
    rw [buildIndexLoop_nil]
    have hrep := replay_eq_fold (s.currentGen + 1)
      (s.segments ++ [(s.currentGen + 1, []), (s.currentGen + 2, [])])
      s.index 0 0 hks
      (fun kp hkp => (entryGood_iff _ _ _).mp (hgoodW kp hkp))
    rw [← hrecs] at hrep
    rw [hrep, hfold]

/-- `set` on a well-formed state: the result is well-formed, the key
reads back as the written value, and replay correspondence is kept. -/
theorem doSet_spec {s : KvState} {k v : String} {s' : KvState}
    (hwf : WF s) (h : doSet s k v = some s') :
    WF s' ∧ get s' k = Except.ok (some v) ∧
    ((replayAll s.segments).1 = s.index → (replayAll s'.segments).1 = s'.index) := by
  unfold doSet at h
  cases hc : setCore s k v with
  | none => rw [hc] at h; cases h
  | some pair =>
    obtain ⟨s₁, evs⟩ := pair
    rw [hc] at h
    simp only at h
    obtain ⟨hwf₁, hgen₁, hget₁, hrep₁⟩ := setCore_spec hwf hc
    by_cases hthr : COMPACTION_THRESHOLD < s₁.uncompactedSize
    · rw [if_pos hthr] at h
      obtain ⟨s₂, evs₂, heqc, hwf₂, hU₂, hgen₂, hgetp₂, hrep₂⟩ := compact_spec hwf₁
      rw [heqc] at h
      simp only [Option.some.injEq] at h
      subst h
      exact ⟨hwf₂, (hgetp₂ k).trans hget₁, fun _ => hrep₂⟩
    · rw [if_neg hthr] at h
      simp only [Option.some.injEq] at h
      subst h
      exact ⟨hwf₁, hget₁, hrep₁⟩

/-- A successful `remove` presupposes the key is present. -/
theorem doRemove_ok_get {s : KvState} {k : String} {s' : KvState}
    (h : doRemove s k = (s', none)) : ∃ p, idxGet s.index k = some p := by
  unfold doRemove at h
  cases hp : idxGet s.index k with
  | none => rw [hp] at h; simp at h
  | some p => exact ⟨p, rfl⟩

/-- Running a sequence of successful operations preserves
well-formedness and the replay correspondence. -/
theorem runOps_inv : ∀ (ops : List Op) (s s' : KvState),
    WF s → (replayAll s.segments).1 = s.index → runOps s ops = some s' →
    WF s' ∧ (replayAll s'.segments).1 = s'.index := by
  intro ops
  induction ops with
  | nil =>
    intro s s' hwf hrep h
    simp only [runOps, Option.some.injEq] at h
    subst h
    exact ⟨hwf, hrep⟩
  | cons op rest ih =>
    intro s s' hwf hrep h
    cases op with
    | set k v =>
      simp only [runOps] at h
      cases hd : doSet s k v with
      | none => rw [hd] at h; cases h
      | some s₁ =>
        rw [hd] at h
        obtain ⟨hwf₁, _, hrep₁⟩ := doSet_spec hwf hd
        exact ih s₁ s' hwf₁ (hrep₁ hrep) h
    | remove k =>
      simp only [runOps] at h
      cases hd : doRemove s k with
      | mk s₁ e =>
        cases e with
        | none =>
          rw [hd] at h
          obtain ⟨p, hp⟩ := doRemove_ok_get hd
          obtain ⟨s₂, heq, hwf₂, _, _, _, hrep₂⟩ := doRemove_spec hwf hp
          rw [heq] at hd
          simp only [Prod.mk.injEq] at hd
          obtain ⟨hd1, -⟩ := hd
          subst hd1
          exact ih _ s' hwf₂ (hrep₂ hrep) h
        | some err => rw [hd] at h; cases h

theorem le_maxGen : ∀ {segs : Segments} {gf : Nat × LogFile}, gf ∈ segs →
    gf.1 ≤ maxGen segs := by
  intro segs
  induction segs with
  | nil => intro gf h; simp at h
  | cons gf0 rest ih =>
    intro gf h
    rcases List.mem_cons.mp h with heq | hmem
    · subst heq
      simp only [maxGen, List.map_cons, List.foldr_cons]
      exact Nat.le_max_left _ _
    · have := ih hmem
      simp only [maxGen, List.map_cons, List.foldr_cons]
      exact le_trans this (Nat.le_max_right _ _)

/-- Reopening the directory of a state whose index agrees with its
replay yields observationally identical reads. -/
theorem openStore_get {s : KvState} (hwf : WF s)
    (hrep : (replayAll s.segments).1 = s.index) (k : String) :
    get (openStore s.segments) k = get s k := by
  obtain ⟨hsort, hact, hle, hks, hent⟩ := hwf
  have hlt : ∀ gf ∈ s.segments, gf.1 < maxGen s.segments + 1 := by
    intro gf hgf
    have := le_maxGen hgf
    omega
  have hins : insGen s.segments (maxGen s.segments + 1) []
      = s.segments ++ [(maxGen s.segments + 1, [])] := insGen_eq_append hlt []
  simp only [openStore, hins, hrep]
  cases hk : idxGet s.index k with
  | none => unfold get; simp only [hk]
  | some p =>
    have hmem : (k, p) ∈ s.index := idxGet_mem hk
    obtain ⟨v, hv⟩ := (entryGood_iff _ _ _).mp (hent (k, p) hmem)
    have hv' := readState_append hv [(maxGen s.segments + 1, [])]
    unfold get
    simp only [hk, hv, hv']

/-- The compaction copy loop only appends write and index events to the
trace, never a flush. -/
theorem compactLoop_events (cg : Nat) (segs : Segments) :
    ∀ (todo : List (String × CommandPosition)) (pos : Nat) (buf : LogFile)
      (idx : Index) (evs : List Event)
      (out : LogFile × Index × Nat × List Event),
    compactLoop cg segs todo pos buf idx evs = some out →
    ∃ tail, out.2.2.2 = evs ++ tail ∧ ∀ e ∈ tail, ∀ g, e ≠ Event.flushSeg g := by
  intro todo
  induction todo with
  | nil =>
    intro pos buf idx evs out h
    simp only [compactLoop, Option.some.injEq] at h
    subst h
    exact ⟨[], by simp, by simp⟩
  | cons kp rest ih =>
    intro pos buf idx evs out h
    obtain ⟨k, p⟩ := kp
    simp only [compactLoop] at h
    cases hr : readState segs p with
    | none => rw [hr] at h; cases h
    | some c =>
      rw [hr] at h
      obtain ⟨tail, htail, hnf⟩ := ih _ _ _ _ _ h
      refine ⟨[Event.appendRec cg pos p.length,
               Event.insertIdx k ⟨pos, p.length, cg⟩] ++ tail, ?_, ?_⟩
      · rw [htail]
        simp [List.append_assoc]
      · intro e he g
        rcases List.mem_append.mp he with hin | hin
        · rcases List.mem_cons.mp hin with h1 | h1
          · rw [h1]; intro hcon; cases hcon
          · simp only [List.mem_singleton] at h1
            rw [h1]; intro hcon; cases hcon
        · exact hnf e hin g

/-! ### The claims -/

/-- C1: on a well-formed engine where the operations succeed,
immediately after `set(k, v)` a `get(k)` returns `Some v`, and
immediately after a successful `remove(k)` a `get(k)` returns `None`. -/
theorem c1_set_remove_roundtrip (s s₁ s₂ : KvState) (k v k₂ : String)
    (hwf : WF s) (hset : doSet s k v = some s₁)
    (hrem : doRemove s k₂ = (s₂, none)) :
    get s₁ k = Except.ok (some v) ∧ get s₂ k₂ = Except.ok none := by
  refine ⟨(doSet_spec hwf hset).2.1, ?_⟩
  obtain ⟨p, hp⟩ := doRemove_ok_get hrem
  obtain ⟨s₂', heq, _, _, _, hget, _⟩ := doRemove_spec hwf hp
  rw [heq] at hrem
  simp only [Prod.mk.injEq] at hrem
  obtain ⟨h1, -⟩ := hrem
  rw [← h1]
  exact hget

theorem c1_witness :
    WF (⟨[(1, [Command.set "a" "1"])], 1, 0, [("a", ⟨0, 31, 1⟩)]⟩ : KvState)
    ∧ doSet ⟨[(1, [Command.set "a" "1"])], 1, 0, [("a", ⟨0, 31, 1⟩)]⟩ "b" "2"
        = some ⟨[(1, [Command.set "a" "1", Command.set "b" "2"])], 1, 0,
            [("a", ⟨0, 31, 1⟩), ("b", ⟨31, 31, 1⟩)]⟩
    ∧ doRemove ⟨[(1, [Command.set "a" "1"])], 1, 0, [("a", ⟨0, 31, 1⟩)]⟩ "a"
        = (⟨[(1, [Command.set "a" "1", Command.remove "a"])], 1, 31, []⟩, none)
    ∧ (get (⟨[(1, [Command.set "a" "1", Command.set "b" "2"])], 1, 0,
          [("a", ⟨0, 31, 1⟩), ("b", ⟨31, 31, 1⟩)]⟩ : KvState) "b" = Except.ok (some "2")
      ∧ get (⟨[(1, [Command.set "a" "1", Command.remove "a"])], 1, 31, []⟩ : KvState) "a"
          = Except.ok none) :=
  ⟨by decide, by decide, by decide,
    c1_set_remove_roundtrip ⟨[(1, [Command.set "a" "1"])], 1, 0, [("a", ⟨0, 31, 1⟩)]⟩
      ⟨[(1, [Command.set "a" "1", Command.set "b" "2"])], 1, 0,
        [("a", ⟨0, 31, 1⟩), ("b", ⟨31, 31, 1⟩)]⟩
      ⟨[(1, [Command.set "a" "1", Command.remove "a"])], 1, 31, []⟩
      "b" "2" "a" (by decide) (by decide) (by decide)⟩

/-- C2: for every sequence of successful operations run from a store
opened on a fresh directory, reopening the resulting directory yields a
store whose `get` agrees with the pre-drop store on every key. -/
theorem c2_persistence_reopen (ops : List Op) (s : KvState)
    (h : runOps (openStore []) ops = some s) (k : String) :
    get (openStore s.segments) k = get s k := by
  have hwf0 : WF (openStore []) := by decide
  have hrep0 : (replayAll (openStore []).segments).1 = (openStore []).index := by decide
  obtain ⟨hwf, hrep⟩ := runOps_inv ops (openStore []) s hwf0 hrep0 h
  exact openStore_get hwf hrep k

theorem c2_witness :
    runOps (openStore []) [Op.set "a" "1"]
      = some ⟨[(1, [Command.set "a" "1"])], 1, 0, [("a", ⟨0, 31, 1⟩)]⟩
    ∧ get (openStore (⟨[(1, [Command.set "a" "1"])], 1, 0,
          [("a", ⟨0, 31, 1⟩)]⟩ : KvState).segments) "a"
      = get (⟨[(1, [Command.set "a" "1"])], 1, 0, [("a", ⟨0, 31, 1⟩)]⟩ : KvState) "a" :=
  ⟨by decide, c2_persistence_reopen [Op.set "a" "1"] _ (by decide) "a"⟩

/-- C3: the claim says the uncompacted-bytes counter equals 0 when
compaction returns; the code never resets it.  Compacting a well-formed
state whose counter is 5 succeeds and returns a state whose counter is
still 5. -/
theorem c3_compact_leaves_counter :
    compact ⟨[(1, [Command.set "a" "1"])], 1, 5, [("a", ⟨0, 31, 1⟩)]⟩
      = some (⟨[(2, [Command.set "a" "1"]), (3, [])], 3, 5, [("a", ⟨0, 31, 2⟩)]⟩,
          [Event.appendRec 2 0 31, Event.insertIdx "a" ⟨0, 31, 2⟩, Event.flushSeg 2])
    ∧ WF (⟨[(1, [Command.set "a" "1"])], 1, 5, [("a", ⟨0, 31, 1⟩)]⟩ : KvState)
    ∧ (5 : Nat) ≠ 0 := by decide

/-- C4 counterexample: at a store where "a" is absent, the served
response to `Get "a"` is `Ok(Some "Key not found")`, which differs from
the claimed `Ok(None)`. -/
theorem c4_counterexample :
    serve (openStore []) (KvsRequest.get "a")
      = Except.ok (KvsResponse.ok (some "Key not found"), openStore [])
    ∧ KvsResponse.ok (some "Key not found") ≠ KvsResponse.ok none := by decide

/-- C4 (amended): for every Get request over the wire whose key is
absent from the engine, the server's response is
`Ok(Some "Key not found")`. -/
theorem c4_get_absent_response (s : KvState) (key : String)
    (h : idxGet s.index key = none) :
    serve s (KvsRequest.get key)
      = Except.ok (KvsResponse.ok (some "Key not found"), s) := by
  unfold serve get
  simp only [h]

theorem c4_witness :
    idxGet (openStore []).index "a" = none
    ∧ serve (openStore []) (KvsRequest.get "a")
        = Except.ok (KvsResponse.ok (some "Key not found"), openStore []) :=
  ⟨by decide, c4_get_absent_response (openStore []) "a" (by decide)⟩

/-- C5 counterexample: compacting a well-formed store produces a trace
in which the index insertion for "a" precedes the only flush of the
compact segment, so the insertion was not performed after the bytes it
points to were flushed. -/
theorem c5_counterexample :
    WF (⟨[(1, [Command.set "a" "1"])], 1, 0, [("a", ⟨0, 31, 1⟩)]⟩ : KvState)
    ∧ compact ⟨[(1, [Command.set "a" "1"])], 1, 0, [("a", ⟨0, 31, 1⟩)]⟩
        = some (⟨[(2, [Command.set "a" "1"]), (3, [])], 3, 0, [("a", ⟨0, 31, 2⟩)]⟩,
            [Event.appendRec 2 0 31, Event.insertIdx "a" ⟨0, 31, 2⟩, Event.flushSeg 2])
    ∧ fbi [Event.appendRec 2 0 31, Event.insertIdx "a" ⟨0, 31, 2⟩, Event.flushSeg 2]
        = false := by decide

/-- C5 (amended): in `set` the index insertion happens only after the
appended bytes are flushed, but during compaction every per-key index
update happens before the compact segment's single flush, which occurs
only after the whole copy loop. -/
theorem c5_flush_ordering (s : KvState) (k v : String) (s₁ s₂ : KvState)
    (evsSet evsCompact : List Event)
    (hset : setCore s k v = some (s₁, evsSet))
    (hcompact : compact s = some (s₂, evsCompact)) :
    fbi evsSet = true
    ∧ ∃ pre, evsCompact = pre ++ [Event.flushSeg (s.currentGen + 1)]
        ∧ Event.flushSeg (s.currentGen + 1) ∉ pre := by
  constructor
  · unfold setCore at hset
    cases hl : lookupGen s.segments s.currentGen with
    | none => rw [hl] at hset; cases hset
    | some f =>
      rw [hl] at hset
      simp only [Option.some.injEq, Prod.mk.injEq] at hset
      obtain ⟨-, hevs⟩ := hset
      rw [← hevs]
      simp [fbi, fbiAux]
  · simp only [compact] at hcompact
    cases hcl : compactLoop (s.currentGen + 1)
        (insGen (insGen s.segments (s.currentGen + 2) []) (s.currentGen + 1) [])
        s.index 0 [] s.index [] with
    | none => rw [hcl] at hcompact; cases hcompact
    | some out =>
      obtain ⟨buf, idx, pos, evs⟩ := out
      rw [hcl] at hcompact
      simp only [Option.some.injEq, Prod.mk.injEq] at hcompact
      obtain ⟨-, hevs⟩ := hcompact
      obtain ⟨tail, htail, hnf⟩ := compactLoop_events _ _ _ _ _ _ _ _ hcl
      simp only [List.nil_append] at htail
      refine ⟨evs, hevs.symm, ?_⟩
      intro hmem
      rw [htail] at hmem
      exact hnf _ hmem (s.currentGen + 1) rfl

theorem c5_witness :
    fbi [Event.appendRec 1 31 31, Event.flushSeg 1, Event.insertIdx "b" ⟨31, 31, 1⟩] = true
    ∧ ∃ pre, [Event.appendRec 2 0 31, Event.insertIdx "a" ⟨0, 31, 2⟩, Event.flushSeg 2]
        = pre ++ [Event.flushSeg 2] ∧ Event.flushSeg 2 ∉ pre :=
  c5_flush_ordering ⟨[(1, [Command.set "a" "1"])], 1, 0, [("a", ⟨0, 31, 1⟩)]⟩ "b" "2"
    ⟨[(1, [Command.set "a" "1", Command.set "b" "2"])], 1, 0,
      [("a", ⟨0, 31, 1⟩), ("b", ⟨31, 31, 1⟩)]⟩
    ⟨[(2, [Command.set "a" "1"]), (3, [])], 3, 0, [("a", ⟨0, 31, 2⟩)]⟩
    [Event.appendRec 1 31 31, Event.flushSeg 1, Event.insertIdx "b" ⟨31, 31, 1⟩]
    [Event.appendRec 2 0 31, Event.insertIdx "a" ⟨0, 31, 2⟩, Event.flushSeg 2]
    (by decide) (by decide)

/-- C6 counterexample: removing "a" (old entry length 31, tombstone
length 22) leaves the counter at 31, not at 31 + 22 as the claim
requires. -/
theorem c6_counterexample :
    doRemove ⟨[(1, [Command.set "a" "1"])], 1, 0, [("a", ⟨0, 31, 1⟩)]⟩ "a"
      = (⟨[(1, [Command.set "a" "1", Command.remove "a"])], 1, 31, []⟩, none)
    ∧ encLen (Command.remove "a") = 22
    ∧ (31 : Nat) ≠ 0 + 31 + 22 := by decide

/-- C6 (amended): removing a present key succeeds, deletes the key from
the index, and increases the uncompacted counter by the old index
entry's record length only; the tombstone's own length is not added. -/
theorem c6_remove_counter (s : KvState) (k : String) (p : CommandPosition)
    (hwf : WF s) (hp : idxGet s.index k = some p) :
    (doRemove s k).2 = none
    ∧ (doRemove s k).1.uncompactedSize = s.uncompactedSize + p.length
    ∧ idxGet (doRemove s k).1.index k = none := by
  obtain ⟨-, -, -, hks, -⟩ := hwf
  refine ⟨?_, ?_, ?_⟩
  · simp [doRemove, hp]
  · simp [doRemove, hp]
  · simp only [doRemove, hp]
    exact idxGet_remove_self hks k

theorem c6_witness :
    WF (⟨[(1, [Command.set "a" "1"])], 1, 0, [("a", ⟨0, 31, 1⟩)]⟩ : KvState)
    ∧ idxGet (⟨[(1, [Command.set "a" "1"])], 1, 0,
          [("a", ⟨0, 31, 1⟩)]⟩ : KvState).index "a" = some ⟨0, 31, 1⟩
    ∧ ((doRemove ⟨[(1, [Command.set "a" "1"])], 1, 0, [("a", ⟨0, 31, 1⟩)]⟩ "a").2 = none
      ∧ (doRemove ⟨[(1, [Command.set "a" "1"])], 1, 0,
            [("a", ⟨0, 31, 1⟩)]⟩ "a").1.uncompactedSize = 0 + 31
      ∧ idxGet (doRemove ⟨[(1, [Command.set "a" "1"])], 1, 0,
            [("a", ⟨0, 31, 1⟩)]⟩ "a").1.index "a" = none) :=
  ⟨by decide, by decide,
    c6_remove_counter _ "a" ⟨0, 31, 1⟩ (by decide) (by decide)⟩

/-- C7: removing a key absent from the index fails with the KeyNotFound
error and returns the engine state unchanged: no tombstone is appended
and the index and uncompacted counter are untouched. -/
theorem c7_remove_missing (s : KvState) (k : String)
    (h : idxGet s.index k = none) :
    doRemove s k = (s, some KvError.keyNotFound) := by
  simp only [doRemove, h]

theorem c7_witness :
    idxGet (openStore []).index "a" = none
    ∧ doRemove (openStore []) "a" = (openStore [], some KvError.keyNotFound) :=
  ⟨by decide, c7_remove_missing (openStore []) "a" (by decide)⟩

/-- C8: once the type marker file records an engine name, starting the
server with the other engine fails with the engine-mismatch error and
starting it with the recorded engine succeeds. -/
theorem c8_engine_mismatch (recorded other : String)
    (hrec : recorded ≠ "") (hne : other ≠ recorded) :
    currentEngineOr recorded other = Except.error KvError.engineMismatch
    ∧ currentEngineOr recorded recorded = Except.ok (recorded, recorded) := by
  have hemp : recorded.isEmpty = false := by
    have hiff := String.isEmpty_iff recorded
    cases he : recorded.isEmpty
    · rfl
    · rw [he] at hiff
      exact absurd (hiff.mp rfl) hrec
  have hne' : recorded ≠ other := fun hh => hne hh.symm
  constructor
  · simp [currentEngineOr, hemp, hne']
  · simp [currentEngineOr, hemp]

theorem c8_witness :
    ("kvs" : String) ≠ ""
    ∧ ("sled" : String) ≠ "kvs"
    ∧ (currentEngineOr "kvs" "sled" = Except.error KvError.engineMismatch
      ∧ currentEngineOr "kvs" "kvs" = Except.ok ("kvs", "kvs")) :=
  ⟨by decide, by decide, c8_engine_mismatch "kvs" "sled" (by decide) (by decide)⟩

/-- C10: the engine accepts the empty string as a key: `set("", v)`
succeeds and a subsequent `get("")` returns `Some v`. -/
theorem c10_empty_key (s s₁ : KvState) (v : String)
    (hwf : WF s) (hset : doSet s "" v = some s₁) :
    get s₁ "" = Except.ok (some v) :=
  (doSet_spec hwf hset).2.1

theorem c10_witness :
    WF (openStore [])
    ∧ doSet (openStore []) "" "x"
        = some ⟨[(1, [Command.set "" "x"])], 1, 0, [("", ⟨0, 30, 1⟩)]⟩
    ∧ get (⟨[(1, [Command.set "" "x"])], 1, 0, [("", ⟨0, 30, 1⟩)]⟩ : KvState) ""
        = Except.ok (some "x") :=
  ⟨by decide, by decide,
    c10_empty_key (openStore []) _ "x" (by decide) (by decide)⟩

end KVS
